import Mathlib

/-!
Verification of the murjs reconciliation engine and reactive store.

The definitions below are a shallow embedding of the repository source:
  * `src/src/vdom.js` — `diff`, `diffProps`, `diffChildren` (the keyed version);
  * `src/src/render.js` — `setProp`, `setProps`, `removeProp` and the
    prop-patch application loop of `patch`;
  * the reactive module (`createReactive`, `track`, `trigger`, `effect`,
    `cleanup`) from the unnamed reactive source file.

JavaScript objects and `Map`s are modelled as association lists that keep
insertion order; JS `Set`s as duplicate-free lists that keep insertion
order; JS values (compared with strict equality, functions and objects by
identity) as the inductive type `Val` where identities are numeric tags.
-/

namespace Murjs

/-- JS values as they appear in vnode props and in the reactive store.
Strict equality of JS values is structural equality here; functions and
plain objects are represented by an identity tag, matching comparison by
reference. `undef` is the JS undefined value. -/
inductive Val : Type where
  | num (n : Int)
  | str (s : String)
  | boolean (b : Bool)
  | undef
  | fnRef (id : Nat)
  | obj (id : Nat)
deriving DecidableEq, Repr

/-- JS truthiness of a `Val` (used by `if (state.flag)`-style reads). -/
def Val.truthy : Val → Bool
  | .num n => n != 0
  | .str s => s ≠ ""
  | .boolean b => b
  | .undef => false
  | .fnRef _ => true
  | .obj _ => true

/-- Lookup in an insertion-ordered association list (JS object property
read / `Map.get`): first matching key wins; keys are unique in any list
that models a JS object or `Map`. -/
def alook {κ β : Type} [DecidableEq κ] : List (κ × β) → κ → Option β
  | [], _ => none
  | (k1, v1) :: rest, k => if k1 = k then some v1 else alook rest k

/-- Write to an insertion-ordered association list (JS object property
write / `Map.set`): replaces the value at an existing key in place,
otherwise appends the new entry at the end. -/
def aset {κ β : Type} [DecidableEq κ] : List (κ × β) → κ → β → List (κ × β)
  | [], k, v => [(k, v)]
  | (k1, v1) :: rest, k, v =>
      if k1 = k then (k, v) :: rest else (k1, v1) :: aset rest k v

/-- Deletion from an association list (JS `delete obj[key]`). -/
def adel {κ β : Type} [DecidableEq κ] (l : List (κ × β)) (k : κ) : List (κ × β) :=
  l.filter (fun kv => kv.1 ≠ k)

@[simp] theorem alook_nil {κ β : Type} [DecidableEq κ] (k : κ) :
    alook ([] : List (κ × β)) k = none := rfl

@[simp] theorem alook_cons {κ β : Type} [DecidableEq κ] (k1 : κ) (v1 : β)
    (rest : List (κ × β)) (k : κ) :
    alook ((k1, v1) :: rest) k = if k1 = k then some v1 else alook rest k := rfl

theorem alook_aset_self {κ β : Type} [DecidableEq κ] (l : List (κ × β)) (k : κ) (v : β) :
    alook (aset l k v) k = some v := by
  induction l with
  | nil => simp [aset]
  | cons hd tl ih =>
      obtain ⟨k1, v1⟩ := hd
      by_cases h : k1 = k <;> simp [aset, h, ih]

theorem alook_aset_ne {κ β : Type} [DecidableEq κ] (l : List (κ × β)) (k k' : κ) (v : β)
    (hne : k ≠ k') : alook (aset l k v) k' = alook l k' := by
  induction l with
  | nil => simp [aset, hne]
  | cons hd tl ih =>
      obtain ⟨k1, v1⟩ := hd
      by_cases h : k1 = k
      · subst h
        simp [aset, hne]
      · simp [aset, h, ih]

/-- Setting a key back to the value it already holds (first occurrence)
leaves the association list unchanged. -/
theorem aset_self_of_alook {κ β : Type} [DecidableEq κ] (l : List (κ × β)) (k : κ) (v : β)
    (h : alook l k = some v) : aset l k v = l := by
  induction l with
  | nil => simp [alook] at h
  | cons hd tl ih =>
      obtain ⟨k1, v1⟩ := hd
      by_cases hk : k1 = k
      · subst hk
        simp [alook] at h
        simp [aset, h]
      · simp [alook, hk] at h
        simp [aset, hk, ih h]

/-- A virtual node as built by `h` / `createTextVNode` in `src/src/vdom.js`:
a `type` tag (the sentinel string "TEXT" marks text nodes), a `props`
object, a `children` array and a `text` payload (meaningful only for text
nodes; `createTextVNode` is the only producer of a non-default `text`). -/
inductive VNode : Type where
  | mk (type : String) (props : List (String × Val)) (children : List VNode)
       (text : String)

def VNode.type : VNode → String
  | .mk t _ _ _ => t

def VNode.props : VNode → List (String × Val)
  | .mk _ p _ _ => p

def VNode.children : VNode → List VNode
  | .mk _ _ c _ => c

def VNode.text : VNode → String
  | .mk _ _ _ x => x

@[simp] theorem VNode.type_mk (t : String) (p : List (String × Val))
    (c : List VNode) (x : String) : (VNode.mk t p c x).type = t := rfl

@[simp] theorem VNode.props_mk (t : String) (p : List (String × Val))
    (c : List VNode) (x : String) : (VNode.mk t p c x).props = p := rfl

@[simp] theorem VNode.children_mk (t : String) (p : List (String × Val))
    (c : List VNode) (x : String) : (VNode.mk t p c x).children = c := rfl

@[simp] theorem VNode.text_mk (t : String) (p : List (String × Val))
    (c : List VNode) (x : String) : (VNode.mk t p c x).text = x := rfl

/-- `child?.props?.key` restricted to the non-nullish case: the JS code
always guards this read with `!= null`, which rejects both a missing
`key` prop and an explicit undefined. -/
def keyOf (c : VNode) : Option Val :=
  match alook c.props "key" with
  | none => none
  | some v => if v = Val.undef then none else some v

/-- A prop patch produced by `diffProps`: `{type:'SET_PROP', key, value}`
or `{type:'REMOVE_PROP', key}`. -/
inductive PropPatch : Type where
  | setProp (key : String) (value : Val)
  | removeProp (key : String)
deriving DecidableEq, Repr

mutual
/-- A patch object as produced by `diff` in `src/src/vdom.js`. `diff`
returning JS `null` is modelled as `Option Patch` being `none` at the
call sites. `CREATE` carries an `Option VNode` because the JS object
field `vnode` is whatever `diff` was handed as its second argument. -/
inductive Patch : Type where
  | create (vnode : Option VNode)
  | remove
  | replace (vnode : VNode)
  | textSet (text : String)
  | update (propPatches : List PropPatch) (childPatches : ChildPatches)

/-- The `{keyed, patches}` object returned by `diffChildren`. -/
inductive ChildPatches : Type where
  | mk (keyed : Bool) (patches : List ChildEntry)

/-- An element of the `patches` array of `diffChildren`: in the
positional branch a patch-or-null, in the keyed branch an entry
`{oldIndex, newIndex, key, patch}` (JS `null` indices are `none`). -/
inductive ChildEntry : Type where
  | pos (patch : Option Patch)
  | keyedE (oldIndex : Option Nat) (newIndex : Option Nat) (key : Option Val)
           (patch : Option Patch)
end

def ChildPatches.keyed : ChildPatches → Bool
  | .mk b _ => b

def ChildPatches.patches : ChildPatches → List ChildEntry
  | .mk _ ps => ps

@[simp] theorem ChildPatches.keyed_mk (b : Bool) (ps : List ChildEntry) :
    (ChildPatches.mk b ps).keyed = b := rfl

@[simp] theorem ChildPatches.patches_mk (b : Bool) (ps : List ChildEntry) :
    (ChildPatches.mk b ps).patches = ps := rfl

/-- `diffProps` from `src/src/vdom.js`: one `SET_PROP` per key of
`newProps` whose value differs (by strict equality, a missing key on the
old side reading as undefined) from the old value, in `newProps` order;
then one `REMOVE_PROP` per key of `oldProps` not present in `newProps`,
in `oldProps` order. -/
def diffProps (oldProps newProps : List (String × Val)) : List PropPatch :=
  (newProps.filterMap (fun kv =>
    if (alook oldProps kv.1).getD Val.undef ≠ kv.2 then
      some (PropPatch.setProp kv.1 kv.2)
    else none)) ++
  (oldProps.filterMap (fun kv =>
    if alook newProps kv.1 = none then some (PropPatch.removeProp kv.1)
    else none))

/-- The `oldKeyMap` construction of `diffChildren`: walk `oldChildren`
with their indices, entering `key -> (child, index)` for every keyed
child; `Map.set` overwrites, so a repeated key keeps its original map
position but ends up bound to the last occurrence. -/
def buildKeyMapFrom : List VNode → Nat → List (Val × (VNode × Nat)) →
    List (Val × (VNode × Nat))
  | [], _, m => m
  | c :: rest, i, m =>
      buildKeyMapFrom rest (i + 1)
        (match keyOf c with
         | none => m
         | some k => aset m k (c, i))

def buildKeyMap (l : List VNode) : List (Val × (VNode × Nat)) :=
  buildKeyMapFrom l 0 []

/-- The `usedOldIndices` set of `diffChildren`: the old index of every
new child whose key is found in the old key map. -/
def usedIndicesOf (okm : List (Val × (VNode × Nat))) (newChildren : List VNode) :
    List Nat :=
  newChildren.filterMap (fun c =>
    match keyOf c with
    | none => none
    | some k => (alook okm k).map (fun e => e.2))

/-- The removal pass of the keyed branch of `diffChildren`: one
`{oldIndex, newIndex: null, key, patch: REMOVE}` per old index not
consumed by the matching pass, in old-list order. -/
def removalsOf (used : List Nat) (oldChildren : List VNode) : List ChildEntry :=
  oldChildren.enum.filterMap (fun ic =>
    if ic.1 ∈ used then none
    else some (ChildEntry.keyedE (some ic.1) none (keyOf ic.2)
      (some Patch.remove)))

theorem VNode.sizeOf_children_lt (n : VNode) : sizeOf n.children < sizeOf n := by
  cases n with
  | mk t p c x => simp [VNode.children]; omega

theorem list_sizeOf_pos (l : List VNode) : 0 < sizeOf l := by
  cases l <;> simp

mutual
/-- `diff` from `src/src/vdom.js` (keyed version): absent old gives
`CREATE`, absent new gives `REMOVE`, differing types give `REPLACE`,
text nodes compare their text, and otherwise the result is `UPDATE`
whenever the prop patch list or the child patch list is non-empty
(the child patch list counts no-op entries), else JS null.
The source also mutates two module-level one-shot warning flags via
`console.warn`; they never influence the returned patch and are omitted. -/
def diff : Option VNode → Option VNode → Option Patch
  | none, newVNode => some (Patch.create newVNode)
  | some _, none => some Patch.remove
  | some o, some n =>
      if o.type ≠ n.type then some (Patch.replace n)
      else if o.type = "TEXT" then
        if o.text ≠ n.text then some (Patch.textSet n.text) else none
      else
        let propPatches := diffProps o.props n.props
        let childPatches := diffChildren o.children n.children
        if 0 < propPatches.length ∨ 0 < childPatches.patches.length then
          some (Patch.update propPatches childPatches)
        else none
termination_by o n => (sizeOf n, 0)
decreasing_by
  simp_wf
  have h1 := VNode.sizeOf_children_lt n
  apply Prod.Lex.left
  omega

/-- `diffChildren` from `src/src/vdom.js`: if not every new child is
keyed, positional comparison over `0 .. max(|old|,|new|)`; otherwise
key-based matching (one entry per new child, then removals for old
indices no new key consumed). -/
def diffChildren (oldChildren newChildren : List VNode) : ChildPatches :=
  let keyedCount := (newChildren.filter (fun c => (keyOf c).isSome)).length
  if h : ¬ keyedCount = newChildren.length then
    ChildPatches.mk false (diffPosFrom oldChildren newChildren)
  else
    let oldKeyMap := buildKeyMap oldChildren
    ChildPatches.mk true
      (diffKeyedFrom oldKeyMap newChildren 0 ++
        removalsOf (usedIndicesOf oldKeyMap newChildren) oldChildren)
termination_by
  (sizeOf newChildren + 1, oldChildren.length + newChildren.length + 1)
decreasing_by
  · apply Prod.Lex.right
    omega
  · apply Prod.Lex.right
    omega

/-- The positional loop of `diffChildren`
(`for i in 0 .. max(|old|,|new|): push diff(oldChildren[i], newChildren[i])`),
rendered as a simultaneous walk of the two child lists: entry `i` is
`diff(oldChildren[i], newChildren[i])`, out-of-range indices reading as
absent, and the walk stops at `max(|old|,|new|)` — the theorem
`diffPosFrom_getElem` below restates it in the indexed form of the
source loop. -/
def diffPosFrom : List VNode → List VNode → List ChildEntry
  | [], [] => []
  | [], n :: nrest => ChildEntry.pos (diff none (some n)) :: diffPosFrom [] nrest
  | o :: orest, [] => ChildEntry.pos (diff (some o) none) :: diffPosFrom orest []
  | o :: orest, n :: nrest =>
      ChildEntry.pos (diff (some o) (some n)) :: diffPosFrom orest nrest
termination_by oldChildren newChildren =>
  (sizeOf newChildren + 1, oldChildren.length)
decreasing_by
  all_goals first
    | (apply Prod.Lex.right
       simp
       done)
    | (apply Prod.Lex.left
       simp
       first
         | done
         | omega)

/-- The matching loop of the keyed branch of `diffChildren`: for each
new child in order, look its key up in the old key map; a hit records
the old index and `diff(oldChild, newChild)`, a miss records a
`CREATE`. -/
def diffKeyedFrom (oldKeyMap : List (Val × (VNode × Nat))) :
    List VNode → Nat → List ChildEntry
  | [], _ => []
  | c :: rest, newIndex =>
      (match keyOf c with
       | none =>
           ChildEntry.keyedE none (some newIndex) none
             (some (Patch.create (some c)))
       | some k =>
           match alook oldKeyMap k with
           | some e =>
               ChildEntry.keyedE (some e.2) (some newIndex) (some k)
                 (diff (some e.1) (some c))
           | none =>
               ChildEntry.keyedE none (some newIndex) (some k)
                 (some (Patch.create (some c)))) ::
      diffKeyedFrom oldKeyMap rest (newIndex + 1)
termination_by l newIndex => (sizeOf l + 1, 0)
decreasing_by
  all_goals
    apply Prod.Lex.left
    simp
    try omega
end

theorem mem_of_alook {κ β : Type} [DecidableEq κ] {l : List (κ × β)} {k : κ} {v : β}
    (h : alook l k = some v) : (k, v) ∈ l := by
  induction l with
  | nil => simp [alook] at h
  | cons hd tl ih =>
      obtain ⟨k1, v1⟩ := hd
      by_cases hk : k1 = k
      · subst hk
        simp [alook] at h
        simp [h]
      · simp [alook, hk] at h
        simp [ih h]

theorem alook_of_mem_nodup {κ β : Type} [DecidableEq κ] {l : List (κ × β)} {k : κ} {v : β}
    (hnd : (l.map Prod.fst).Nodup) (h : (k, v) ∈ l) : alook l k = some v := by
  induction l with
  | nil => simp at h
  | cons hd tl ih =>
      obtain ⟨k1, v1⟩ := hd
      simp at hnd
      rcases List.mem_cons.mp h with h1 | h1
      · obtain ⟨rfl, rfl⟩ := Prod.mk.injEq .. ▸ h1
        simp [alook]
      · have hk : k1 ≠ k := by
          rintro rfl
          exact hnd.1 v h1
        simp [alook, hk, ih hnd.2 h1]

theorem alook_isSome_of_mem {κ β : Type} [DecidableEq κ] {l : List (κ × β)} {k : κ} {v : β}
    (h : (k, v) ∈ l) : ∃ w, alook l k = some w := by
  induction l with
  | nil => simp at h
  | cons hd tl ih =>
      obtain ⟨k1, v1⟩ := hd
      by_cases hk : k1 = k
      · subst hk
        exact ⟨v1, by simp [alook]⟩
      · rcases List.mem_cons.mp h with h1 | h1
        · exact absurd (congrArg Prod.fst h1).symm hk
        · obtain ⟨w, hw⟩ := ih h1
          exact ⟨w, by simp [alook, hk, hw]⟩

/-- With duplicate-free keys (every JS object has them), diffing a props
object against itself yields no prop patches. -/
theorem diffProps_self (p : List (String × Val)) (h : (p.map Prod.fst).Nodup) :
    diffProps p p = [] := by
  unfold diffProps
  rw [List.append_eq_nil]
  constructor
  · rw [List.filterMap_eq_nil]
    intro kv hkv
    have : alook p kv.1 = some kv.2 := alook_of_mem_nodup h (by simpa using hkv)
    simp [this]
  · rw [List.filterMap_eq_nil]
    intro kv hkv
    obtain ⟨w, hw⟩ := alook_isSome_of_mem (l := p) (k := kv.1) (v := kv.2) (by simpa using hkv)
    simp [hw]

/-- Unfolding of `diff` on two present vnodes. -/
theorem diff_some_some (o n : VNode) :
    diff (some o) (some n) =
      if o.type ≠ n.type then some (Patch.replace n)
      else if o.type = "TEXT" then
        if o.text ≠ n.text then some (Patch.textSet n.text) else none
      else
        let propPatches := diffProps o.props n.props
        let childPatches := diffChildren o.children n.children
        if 0 < propPatches.length ∨ 0 < childPatches.patches.length then
          some (Patch.update propPatches childPatches)
        else none := by
  rw [diff]

@[simp] theorem diff_none_some (n : Option VNode) :
    diff none n = some (Patch.create n) := by
  rw [diff]

@[simp] theorem diff_some_none (o : VNode) :
    diff (some o) none = some Patch.remove := by
  rw [diff]

/-- The positional walk computes, at every index below
`max(|old|,|new|)`, exactly `diff(oldChildren[i], newChildren[i])` —
the source's indexed loop. -/
theorem diffPosFrom_eq_map_range (oldChildren newChildren : List VNode) :
    diffPosFrom oldChildren newChildren =
      (List.range (max oldChildren.length newChildren.length)).map
        (fun i => ChildEntry.pos (diff oldChildren[i]? newChildren[i]?)) := by
  induction oldChildren generalizing newChildren with
  | nil =>
      induction newChildren with
      | nil => simp [diffPosFrom]
      | cons n nrest ihn =>
          rw [diffPosFrom]
          simp only [List.length_nil, List.length_cons, Nat.max_eq_right (Nat.zero_le _),
            List.range_succ_eq_map, List.map_cons, List.map_map]
          rw [ihn]
          simp [Nat.max_eq_right (Nat.zero_le _), Function.comp]
  | cons o orest iho =>
      cases newChildren with
      | nil =>
          rw [diffPosFrom]
          simp only [List.length_cons, List.length_nil, Nat.max_eq_left (Nat.zero_le _),
            List.range_succ_eq_map, List.map_cons, List.map_map]
          rw [iho []]
          simp [Nat.max_eq_left (Nat.zero_le _), Function.comp]
      | cons n nrest =>
          rw [diffPosFrom]
          have hmax : max (o :: orest).length (n :: nrest).length =
              max orest.length nrest.length + 1 := by
            simp [Nat.succ_max_succ]
          rw [hmax, List.range_succ_eq_map]
          simp only [List.map_cons, List.map_map]
          rw [iho nrest]
          simp [Function.comp]

/-- Unfolding of `diffChildren` in the not-all-keyed (positional) case. -/
theorem diffChildren_not_allKeyed (oldChildren newChildren : List VNode)
    (h : (newChildren.filter (fun c => (keyOf c).isSome)).length ≠ newChildren.length) :
    diffChildren oldChildren newChildren =
      ChildPatches.mk false (diffPosFrom oldChildren newChildren) := by
  rw [diffChildren]
  simp [h]

/-- Unfolding of `diffChildren` in the all-keyed case. -/
theorem diffChildren_allKeyed (oldChildren newChildren : List VNode)
    (h : (newChildren.filter (fun c => (keyOf c).isSome)).length = newChildren.length) :
    diffChildren oldChildren newChildren =
      ChildPatches.mk true
        (diffKeyedFrom (buildKeyMap oldChildren) newChildren 0 ++
          removalsOf (usedIndicesOf (buildKeyMap oldChildren) newChildren)
            oldChildren) := by
  rw [diffChildren]
  simp [h]

/-- The text vnode `createTextVNode(s)` of `src/src/vdom.js`. -/
def tnode (s : String) : VNode := VNode.mk "TEXT" [] [] s

/-- The list item of the end-to-end scenario:
`{kind:'li', attributes:{className: cls}, children:[text 'Learn JS']}`. -/
def liNode (cls : String) : VNode :=
  VNode.mk "li" [("className", Val.str cls)] [tnode "Learn JS"] ""

/-- A keyed childless list item `{kind:'li', attributes:{key: k}}`. -/
def kNode (k : String) : VNode := VNode.mk "li" [("key", Val.str k)] [] ""

/-- C7: for all vnodes of differing kinds — including TEXT against
non-TEXT — `diff` immediately returns `REPLACE(new)` and never attempts
attribute or child reconciliation. -/
theorem claim_C7_kind_mismatch_replaces (n1 n2 : VNode) (h : n1.type ≠ n2.type) :
    diff (some n1) (some n2) = some (Patch.replace n2) := by
  rw [diff_some_some, if_pos h]

/-- C7 witness: a TEXT node against a div is replaced. -/
theorem claim_C7_witness :
    diff (some (tnode "hello")) (some (VNode.mk "div" [] [] "")) =
      some (Patch.replace (VNode.mk "div" [] [] "")) :=
  claim_C7_kind_mismatch_replaces (tnode "hello") (VNode.mk "div" [] [] "")
    (by decide)

/-- C9: `diff` is a pure function of its two arguments (it is a Lean
function, so equal inputs give structurally equal patches), and the
positional apply path of `patch` in `src/src/render.js`, which re-runs
`diff(oldVNode.children[i], newVNode.children[i])` per child index at
patch time, recomputes exactly the entry the enclosing `diff` stored at
index `i` of `childPatches.patches`. -/
theorem claim_C9_rediff_agrees (oldChildren newChildren : List VNode)
    (hpos : (diffChildren oldChildren newChildren).keyed = false)
    (i : Nat) (hi : i < max oldChildren.length newChildren.length) :
    ((diffChildren oldChildren newChildren).patches)[i]? =
      some (ChildEntry.pos (diff oldChildren[i]? newChildren[i]?)) := by
  by_cases h : (newChildren.filter (fun c => (keyOf c).isSome)).length =
      newChildren.length
  · rw [diffChildren_allKeyed _ _ h] at hpos
    simp at hpos
  · rw [diffChildren_not_allKeyed _ _ h, ChildPatches.patches_mk,
      diffPosFrom_eq_map_range, List.getElem?_map, List.getElem?_range hi]
    rfl

/-- C9 witness: with old children `[text B]` and new `[text X, text Y]`
the stored entry at index 1 is the recomputed `diff` of the pair. -/
theorem claim_C9_witness :
    (diffChildren [tnode "B"] [tnode "X", tnode "Y"]).keyed = false ∧
    ((diffChildren [tnode "B"] [tnode "X", tnode "Y"]).patches)[1]? =
      some (ChildEntry.pos (diff [tnode "B"][1]? [tnode "X", tnode "Y"][1]?)) := by
  refine ⟨?_, claim_C9_rediff_agrees _ _ ?_ 1 (by decide)⟩ <;>
    simp +decide [diffChildren_not_allKeyed, keyOf, tnode]

/-- C5: when not every new child carries a key, `diffChildren` falls
back to positional comparison — the patch list is exactly
`[diff(old[i], new[i]) for i in 0 .. max(|old|,|new|)]` — and on the
unkeyed text lists `['B','C','D']` versus `['A','B','C','D']` this
yields exactly four patches: three text updates shifting every
position and one creation of the trailing `'D'`. -/
theorem claim_C5_positional_fallback :
    (∀ oldChildren newChildren : List VNode,
      (newChildren.filter (fun c => (keyOf c).isSome)).length ≠ newChildren.length →
      diffChildren oldChildren newChildren =
        ChildPatches.mk false
          ((List.range (max oldChildren.length newChildren.length)).map
            (fun i => ChildEntry.pos (diff oldChildren[i]? newChildren[i]?)))) ∧
    diffChildren [tnode "B", tnode "C", tnode "D"]
        [tnode "A", tnode "B", tnode "C", tnode "D"] =
      ChildPatches.mk false
        [ChildEntry.pos (some (Patch.textSet "A")),
         ChildEntry.pos (some (Patch.textSet "B")),
         ChildEntry.pos (some (Patch.textSet "C")),
         ChildEntry.pos (some (Patch.create (some (tnode "D"))))] := by
  constructor
  · intro oldChildren newChildren h
    rw [diffChildren_not_allKeyed _ _ h, diffPosFrom_eq_map_range]
  · simp +decide [diff, diffChildren, diffPosFrom, diffProps, keyOf, tnode]

/-- C5 witness: the general positional clause applied to the concrete
unkeyed single-element lists. -/
theorem claim_C5_witness :
    ([tnode "Y"].filter (fun c => (keyOf c).isSome)).length ≠ [tnode "Y"].length ∧
    diffChildren [] [tnode "Y"] =
      ChildPatches.mk false
        ((List.range (max ([] : List VNode).length [tnode "Y"].length)).map
          (fun i => ChildEntry.pos (diff ([] : List VNode)[i]? [tnode "Y"][i]?))) :=
  ⟨by simp +decide [keyOf, tnode],
   claim_C5_positional_fallback.1 [] [tnode "Y"] (by simp +decide [keyOf, tnode])⟩

/-- C6: for two same-kind non-TEXT nodes the attribute patch list holds
`SET(key,value)` exactly for keys of the new props whose value is
missing from or differs (by strict equality) from the old props, and
`UNSET(key)` exactly for old keys absent from the new props; the
end-to-end `li` scenario produces
`UPDATE([SET(className,'completed')], positional [no-op])`. -/
theorem claim_C6_attribute_patches :
    (∀ (oldProps newProps : List (String × Val)) (k : String) (v : Val),
      (newProps.map Prod.fst).Nodup →
      (PropPatch.setProp k v ∈ diffProps oldProps newProps ↔
        (alook newProps k = some v ∧ (alook oldProps k).getD Val.undef ≠ v))) ∧
    (∀ (oldProps newProps : List (String × Val)) (k : String),
      (PropPatch.removeProp k ∈ diffProps oldProps newProps ↔
        ((∃ w, alook oldProps k = some w) ∧ alook newProps k = none))) ∧
    diff (some (liNode "")) (some (liNode "completed")) =
      some (Patch.update [PropPatch.setProp "className" (Val.str "completed")]
        (ChildPatches.mk false [ChildEntry.pos none])) := by
  refine ⟨?_, ?_, ?_⟩
  · intro oldProps newProps k v hnd
    unfold diffProps
    rw [List.mem_append]
    constructor
    · rintro (hm | hm)
      · rw [List.mem_filterMap] at hm
        obtain ⟨kv, hkv, hcond⟩ := hm
        by_cases hc : (alook oldProps kv.1).getD Val.undef ≠ kv.2
        · rw [if_pos hc] at hcond
          simp at hcond
          obtain ⟨h1, h2⟩ := hcond
          subst h1
          subst h2
          exact ⟨alook_of_mem_nodup hnd (by simpa using hkv), hc⟩
        · rw [if_neg hc] at hcond
          exact absurd hcond (by simp)
      · rw [List.mem_filterMap] at hm
        obtain ⟨kv, hkv, hcond⟩ := hm
        by_cases hc : alook newProps kv.1 = none
        · rw [if_pos hc] at hcond
          exact absurd hcond (by simp)
        · rw [if_neg hc] at hcond
          exact absurd hcond (by simp)
    · rintro ⟨hl, hv⟩
      left
      rw [List.mem_filterMap]
      exact ⟨(k, v), mem_of_alook hl, by rw [if_pos hv]⟩
  · intro oldProps newProps k
    unfold diffProps
    rw [List.mem_append]
    constructor
    · rintro (hm | hm)
      · rw [List.mem_filterMap] at hm
        obtain ⟨kv, hkv, hcond⟩ := hm
        by_cases hc : (alook oldProps kv.1).getD Val.undef ≠ kv.2
        · rw [if_pos hc] at hcond
          exact absurd hcond (by simp)
        · rw [if_neg hc] at hcond
          exact absurd hcond (by simp)
      · rw [List.mem_filterMap] at hm
        obtain ⟨kv, hkv, hcond⟩ := hm
        by_cases hc : alook newProps kv.1 = none
        · rw [if_pos hc] at hcond
          have hk1 : kv.1 = k := by simpa using hcond
          subst hk1
          refine ⟨?_, hc⟩
          obtain ⟨w, hw⟩ := alook_isSome_of_mem (l := oldProps)
            (k := kv.1) (v := kv.2) (by simpa using hkv)
          exact ⟨w, hw⟩
        · rw [if_neg hc] at hcond
          exact absurd hcond (by simp)
    · rintro ⟨⟨w, hw⟩, hn⟩
      right
      rw [List.mem_filterMap]
      exact ⟨(k, w), mem_of_alook hw, by rw [if_pos hn]⟩
  · simp +decide [diff, diffChildren, diffPosFrom, diffProps, keyOf, tnode, liNode]

/-- C6 witness: the SET clause applied at concrete props, plus its
hypotheses at that input. -/
theorem claim_C6_witness :
    ([("className", Val.str "done")].map Prod.fst).Nodup ∧
    (PropPatch.setProp "className" (Val.str "done") ∈
        diffProps [("className", Val.str "")] [("className", Val.str "done")] ↔
      (alook [("className", Val.str "done")] "className" = some (Val.str "done") ∧
        (alook [("className", Val.str "")] "className").getD Val.undef ≠
          Val.str "done")) :=
  ⟨by decide,
   claim_C6_attribute_patches.1 [("className", Val.str "")]
     [("className", Val.str "done")] "className" (Val.str "done") (by decide)⟩

theorem VNode.strongInd (P : VNode → Prop)
    (h : ∀ t ps cs tx, (∀ c ∈ cs, P c) → P (VNode.mk t ps cs tx)) :
    ∀ n, P n
  | .mk t ps cs tx =>
      h t ps cs tx (fun c hc => VNode.strongInd P h c)
termination_by n => sizeOf n
decreasing_by
  have := List.sizeOf_lt_of_mem hc
  simp
  omega

mutual
/-- A patch is "effectively a no-op" when it is JS null, or an `UPDATE`
with no prop patches all of whose child entries carry effectively-no-op
patches; applying such a patch leaves the live tree unchanged. -/
def trivOptPatch : Option Patch → Bool
  | none => true
  | some p => trivPatch p

def trivPatch : Patch → Bool
  | .update [] (.mk _ entries) => trivEntries entries
  | _ => false

def trivEntries : List ChildEntry → Bool
  | [] => true
  | e :: rest => trivEntry e && trivEntries rest

def trivEntry : ChildEntry → Bool
  | .pos q => trivOptPatch q
  | .keyedE _ _ _ q => trivOptPatch q
end

mutual
/-- Well-formedness a vnode tree gets for free from JavaScript and from
reasonable authoring: prop objects never repeat a key (JS objects
cannot), and sibling identity keys are pairwise distinct (the point of
an identity key), recursively. -/
def wellFormed : VNode → Bool
  | .mk _ p cs _ =>
      decide ((p.map Prod.fst).Nodup) &&
      decide ((cs.filterMap keyOf).Nodup) &&
      wfChildren cs

def wfChildren : List VNode → Bool
  | [] => true
  | c :: rest => wellFormed c && wfChildren rest
end

theorem trivEntries_iff (l : List ChildEntry) :
    trivEntries l = true ↔ ∀ e ∈ l, trivEntry e = true := by
  induction l with
  | nil => simp [trivEntries]
  | cons e rest ih => simp [trivEntries, ih]

theorem wfChildren_iff (l : List VNode) :
    wfChildren l = true ↔ ∀ c ∈ l, wellFormed c = true := by
  induction l with
  | nil => simp [wfChildren]
  | cons c rest ih => simp [wfChildren, ih]

theorem wellFormed_mk_iff (t : String) (p : List (String × Val))
    (cs : List VNode) (x : String) :
    wellFormed (VNode.mk t p cs x) = true ↔
      (p.map Prod.fst).Nodup ∧ (cs.filterMap keyOf).Nodup ∧
        ∀ c ∈ cs, wellFormed c = true := by
  rw [wellFormed]
  simp [wfChildren_iff, and_assoc]

theorem buildKeyMapFrom_lookup_of_no_key (l : List VNode) (i : Nat)
    (m : List (Val × (VNode × Nat))) (k : Val)
    (hnk : ∀ c ∈ l, keyOf c ≠ some k) :
    alook (buildKeyMapFrom l i m) k = alook m k := by
  induction l generalizing i m with
  | nil => rfl
  | cons c0 rest ih =>
      rw [buildKeyMapFrom]
      rcases hk0 : keyOf c0 with _ | k0
      · simpa using ih (i + 1) m (fun c hc => hnk c (List.mem_cons_of_mem _ hc))
      · have hne : k0 ≠ k := by
          intro heq
          exact hnk c0 (List.mem_cons_self _ _) (heq ▸ hk0)
        show alook (buildKeyMapFrom rest (i + 1) (aset m k0 (c0, i))) k = alook m k
        rw [ih (i + 1) _ (fun c hc => hnk c (List.mem_cons_of_mem _ hc))]
        exact alook_aset_ne _ _ _ _ hne

theorem buildKeyMapFrom_lookup_nodup (l : List VNode) (i : Nat)
    (m : List (Val × (VNode × Nat))) (j : Nat) (c : VNode) (k : Val)
    (hnd : (l.filterMap keyOf).Nodup) (hj : l[j]? = some c)
    (hk : keyOf c = some k) :
    alook (buildKeyMapFrom l i m) k = some (c, i + j) := by
  induction l generalizing i m j with
  | nil => simp at hj
  | cons c0 rest ih =>
      cases j with
      | zero =>
          simp at hj
          subst hj
          rw [buildKeyMapFrom, hk]
          have hrest : ∀ c' ∈ rest, keyOf c' ≠ some k := by
            intro c' hc' heq
            have : k ∈ rest.filterMap keyOf := List.mem_filterMap.mpr ⟨c', hc', heq⟩
            rw [List.filterMap_cons_some hk] at hnd
            exact (List.nodup_cons.mp hnd).1 this
          rw [buildKeyMapFrom_lookup_of_no_key rest (i + 1) _ k hrest]
          simpa using alook_aset_self m k (c0, i)
      | succ j' =>
          simp only [List.getElem?_cons_succ] at hj
          have hnd' : (rest.filterMap keyOf).Nodup := by
            rcases hk0 : keyOf c0 with _ | k0
            · rwa [List.filterMap_cons_none hk0] at hnd
            · rw [List.filterMap_cons_some hk0] at hnd
              exact (List.nodup_cons.mp hnd).2
          rw [buildKeyMapFrom]
          have := ih (i + 1) (match keyOf c0 with
            | none => m
            | some k0 => aset m k0 (c0, i)) j' hnd' hj
          rw [this]
          have harith : i + 1 + j' = i + (j' + 1) := by omega
          rw [harith]

theorem buildKeyMapFrom_lookup_sound (l : List VNode) (i : Nat)
    (m : List (Val × (VNode × Nat))) (k : Val) (e : VNode × Nat)
    (h : alook (buildKeyMapFrom l i m) k = some e) :
    (∃ j, l[j]? = some e.1 ∧ e.2 = i + j ∧ keyOf e.1 = some k) ∨
      alook m k = some e := by
  induction l generalizing i m with
  | nil => exact Or.inr h
  | cons c0 rest ih =>
      rw [buildKeyMapFrom] at h
      rcases ih (i + 1) _ h with ⟨j, hj, he, hke⟩ | hm
      · exact Or.inl ⟨j + 1, by simpa using hj, by omega, hke⟩
      · rcases hk0 : keyOf c0 with _ | k0
        · rw [hk0] at hm
          exact Or.inr hm
        · rw [hk0] at hm
          by_cases hkk : k0 = k
          · subst hkk
            rw [alook_aset_self] at hm
            obtain rfl : (c0, i) = e := by simpa using hm
            exact Or.inl ⟨0, by simp, by simp, hk0⟩
          · rw [alook_aset_ne _ _ _ _ hkk] at hm
            exact Or.inr hm

/-- The keyed entry `diffChildren` records for a new child `c` at
`newIndex`, given the old key map. -/
def keyedEntryFor (oldKeyMap : List (Val × (VNode × Nat))) (c : VNode)
    (newIndex : Nat) : ChildEntry :=
  match keyOf c with
  | none =>
      ChildEntry.keyedE none (some newIndex) none (some (Patch.create (some c)))
  | some k =>
      match alook oldKeyMap k with
      | some e =>
          ChildEntry.keyedE (some e.2) (some newIndex) (some k)
            (diff (some e.1) (some c))
      | none =>
          ChildEntry.keyedE none (some newIndex) (some k)
            (some (Patch.create (some c)))

theorem diffKeyedFrom_cons (okm : List (Val × (VNode × Nat))) (c : VNode)
    (rest : List VNode) (i : Nat) :
    diffKeyedFrom okm (c :: rest) i =
      keyedEntryFor okm c i :: diffKeyedFrom okm rest (i + 1) := by
  rw [diffKeyedFrom, keyedEntryFor]

@[simp] theorem diffKeyedFrom_nil (okm : List (Val × (VNode × Nat))) (i : Nat) :
    diffKeyedFrom okm [] i = [] := by
  rw [diffKeyedFrom]

theorem diffKeyedFrom_length (okm : List (Val × (VNode × Nat)))
    (l : List VNode) (i : Nat) : (diffKeyedFrom okm l i).length = l.length := by
  induction l generalizing i with
  | nil => simp
  | cons c rest ih => rw [diffKeyedFrom_cons]; simp [ih]

theorem diffKeyedFrom_getElem (okm : List (Val × (VNode × Nat)))
    (l : List VNode) (i0 j : Nat) (c : VNode) (hj : l[j]? = some c) :
    (diffKeyedFrom okm l i0)[j]? = some (keyedEntryFor okm c (i0 + j)) := by
  induction l generalizing i0 j with
  | nil => simp at hj
  | cons c0 rest ih =>
      cases j with
      | zero =>
          simp at hj
          subst hj
          rw [diffKeyedFrom_cons]
          simp
      | succ j' =>
          simp only [List.getElem?_cons_succ] at hj
          rw [diffKeyedFrom_cons]
          simp only [List.getElem?_cons_succ]
          rw [ih (i0 + 1) j' hj]
          congr 2
          omega

theorem allKeyed_mem {l : List VNode}
    (hall : (l.filter (fun c => (keyOf c).isSome)).length = l.length)
    {c : VNode} (hc : c ∈ l) : ∃ k, keyOf c = some k := by
  have := List.filter_length_eq_length.mp hall c hc
  exact Option.isSome_iff_exists.mp (by simpa using this)

theorem mem_diffKeyedFrom {okm : List (Val × (VNode × Nat))} {l : List VNode}
    {i0 : Nat} {e : ChildEntry} (he : e ∈ diffKeyedFrom okm l i0) :
    ∃ j c, l[j]? = some c ∧ e = keyedEntryFor okm c (i0 + j) := by
  induction l generalizing i0 with
  | nil => simp at he
  | cons c0 rest ih =>
      rw [diffKeyedFrom_cons] at he
      rcases List.mem_cons.mp he with rfl | he
      · exact ⟨0, c0, by simp, by simp⟩
      · obtain ⟨j, c, hj, he'⟩ := ih he
        exact ⟨j + 1, c, by simpa using hj, by rw [he']; congr 1; omega⟩

theorem removalsOf_eq_nil {used : List Nat} {oldChildren : List VNode}
    (h : ∀ i c, oldChildren[i]? = some c → i ∈ used) :
    removalsOf used oldChildren = [] := by
  unfold removalsOf
  rw [List.filterMap_eq_nil]
  rintro ⟨i, c⟩ hic
  have := h i c (List.mk_mem_enum_iff_getElem?.mp hic)
  simp [this]

theorem mem_usedIndicesOf_self (cs : List VNode)
    (hall : (cs.filter (fun c => (keyOf c).isSome)).length = cs.length)
    (hnd : (cs.filterMap keyOf).Nodup) (i : Nat) (c : VNode)
    (hic : cs[i]? = some c) : i ∈ usedIndicesOf (buildKeyMap cs) cs := by
  have hc : c ∈ cs := List.getElem?_mem hic
  obtain ⟨k, hk⟩ := allKeyed_mem hall hc
  have hlook : alook (buildKeyMap cs) k = some (c, 0 + i) :=
    buildKeyMapFrom_lookup_nodup cs 0 [] i c k hnd hic hk
  unfold usedIndicesOf
  rw [List.mem_filterMap]
  refine ⟨c, hc, ?_⟩
  rw [hk]
  simp [hlook]

theorem keyedEntryFor_hit (okm : List (Val × (VNode × Nat))) (c : VNode)
    (ni : Nat) (k : Val) (e : VNode × Nat) (hk : keyOf c = some k)
    (hl : alook okm k = some e) :
    keyedEntryFor okm c ni =
      ChildEntry.keyedE (some e.2) (some ni) (some k) (diff (some e.1) (some c)) := by
  simp only [keyedEntryFor, hk, hl]

theorem trivEntries_diffChildren_self (cs : List VNode)
    (hnd : (cs.filterMap keyOf).Nodup)
    (ih : ∀ c ∈ cs, trivOptPatch (diff (some c) (some c)) = true) :
    trivEntries ((diffChildren cs cs).patches) = true := by
  by_cases hall : (cs.filter (fun c => (keyOf c).isSome)).length = cs.length
  · rw [diffChildren_allKeyed _ _ hall, ChildPatches.patches_mk, trivEntries_iff]
    intro e he
    rw [List.mem_append] at he
    rcases he with he | he
    · obtain ⟨j, c, hj, rfl⟩ := mem_diffKeyedFrom he
      obtain ⟨k, hk⟩ := allKeyed_mem hall (List.getElem?_mem hj)
      have hlook : alook (buildKeyMap cs) k = some (c, 0 + j) :=
        buildKeyMapFrom_lookup_nodup cs 0 [] j c k hnd hj hk
      rw [keyedEntryFor_hit _ _ _ _ _ hk hlook]
      simpa [trivEntry] using ih c (List.getElem?_mem hj)
    · rw [removalsOf_eq_nil
        (fun i c hic => mem_usedIndicesOf_self cs hall hnd i c hic)] at he
      simp at he
  · rw [diffChildren_not_allKeyed _ _ hall, ChildPatches.patches_mk,
      diffPosFrom_eq_map_range, trivEntries_iff]
    intro e he
    rw [List.mem_map] at he
    obtain ⟨i, hi, rfl⟩ := he
    rw [List.mem_range, Nat.max_self] at hi
    rw [List.getElem?_eq_getElem hi]
    simpa [trivEntry] using ih _ (cs.getElem_mem hi)

theorem diff_self_trivial : ∀ n : VNode, wellFormed n = true →
    trivOptPatch (diff (some n) (some n)) = true := by
  intro n
  induction n using VNode.strongInd with
  | _ t ps cs tx ih =>
      intro hwf
      obtain ⟨hp, hsk, hwfc⟩ := (wellFormed_mk_iff t ps cs tx).mp hwf
      rw [diff_some_some]
      simp only [VNode.type_mk, VNode.props_mk, VNode.children_mk, VNode.text_mk,
        ne_eq, not_true_eq_false, if_false, ite_not]
      by_cases ht : t = "TEXT"
      · simp [ht, trivOptPatch]
      · rw [if_neg ?_]
        swap
        · simpa using ht
        rw [diffProps_self ps hp]
        have htriv := trivEntries_diffChildren_self cs hsk
          (fun c hc => ih c hc (hwfc c hc))
        by_cases hlen : 0 < (diffChildren cs cs).patches.length
        · rw [if_pos (Or.inr hlen)]
          rcases hdc : diffChildren cs cs with ⟨b, entries⟩
          rw [hdc] at htriv
          simpa [trivOptPatch, trivPatch] using htriv
        · rw [if_neg (by simpa using hlen)]
          rfl

theorem diff_self_noop : ∀ n : VNode, wellFormed n = true →
    (n.type = "TEXT" ∨ n.children = []) → diff (some n) (some n) = none := by
  rintro ⟨t, ps, cs, tx⟩ hwf h
  obtain ⟨hp, hsk, hwfc⟩ := (wellFormed_mk_iff t ps cs tx).mp hwf
  rw [diff_some_some]
  simp only [VNode.type_mk, VNode.props_mk, VNode.children_mk, VNode.text_mk,
    ne_eq, not_true_eq_false, if_false, ite_not]
  by_cases ht : t = "TEXT"
  · simp [ht]
  · rw [if_neg ?_]
    swap
    · simpa using ht
    rcases h with h | h
    · simp at h
      exact absurd h ht
    · subst h
      rw [diffProps_self ps hp]
      rw [diffChildren_allKeyed [] [] (by simp)]
      simp [removalsOf]

/-- C1 counterexample: diffing a one-child div against a structurally
identical copy does *not* return the no-op patch JS null — the code
tests `childPatches.patches.length > 0`, and the positional patch list
has one (no-op) entry per child — so `diff(n,n)` is an `UPDATE`. -/
theorem claim_C1_counterexample :
    diff (some (VNode.mk "div" [] [tnode "x"] ""))
      (some (VNode.mk "div" [] [tnode "x"] "")) ≠ none := by
  have hval : diff (some (VNode.mk "div" [] [tnode "x"] ""))
      (some (VNode.mk "div" [] [tnode "x"] "")) =
      some (Patch.update [] (ChildPatches.mk false [ChildEntry.pos none])) := by
    simp +decide [diff, diffChildren, diffPosFrom, diffProps, keyOf, tnode]
  rw [hval]
  simp

/-- C1 (amended): for every well-formed TreeNode `n` (duplicate-free
prop keys and sibling keys), `diff(n,n)` is the no-op patch (JS null)
when `n` is a TEXT node or has no children; for a node with children it
is instead an effectively-no-op patch: either JS null or an
`UPDATE([], childPatches)` whose entries all carry, recursively,
effectively-no-op patches. -/
theorem claim_C1_selfdiff_noop (n : VNode) (hwf : wellFormed n = true) :
    trivOptPatch (diff (some n) (some n)) = true ∧
    ((n.type = "TEXT" ∨ n.children = []) → diff (some n) (some n) = none) :=
  ⟨diff_self_trivial n hwf, diff_self_noop n hwf⟩

/-- C1 witness: the amended claim instantiated at the counterexample
node (a div with one text child) and at a childless keyed li. -/
theorem claim_C1_witness :
    (wellFormed (VNode.mk "div" [] [tnode "x"] "") = true ∧
      trivOptPatch (diff (some (VNode.mk "div" [] [tnode "x"] ""))
        (some (VNode.mk "div" [] [tnode "x"] ""))) = true) ∧
    (wellFormed (kNode "a") = true ∧
      diff (some (kNode "a")) (some (kNode "a")) = none) := by
  have h1 : wellFormed (VNode.mk "div" [] [tnode "x"] "") = true := by
    simp +decide [wellFormed, wfChildren, keyOf, tnode]
  have h2 : wellFormed (kNode "a") = true := by
    simp +decide [wellFormed, wfChildren, keyOf, kNode]
  exact ⟨⟨h1, (claim_C1_selfdiff_noop _ h1).1⟩,
         ⟨h2, (claim_C1_selfdiff_noop _ h2).2 (Or.inr rfl)⟩⟩

def ChildEntry.oldIndex : ChildEntry → Option Nat
  | .pos _ => none
  | .keyedE oi _ _ _ => oi

def ChildEntry.newIndex : ChildEntry → Option Nat
  | .pos _ => none
  | .keyedE _ ni _ _ => ni

theorem keyedEntryFor_newIndex (okm : List (Val × (VNode × Nat))) (c : VNode)
    (ni : Nat) : (keyedEntryFor okm c ni).newIndex = some ni := by
  rcases hk : keyOf c with _ | k
  · simp [keyedEntryFor, hk, ChildEntry.newIndex]
  · rcases hl : alook okm k with _ | e <;>
      simp [keyedEntryFor, hk, hl, ChildEntry.newIndex]

theorem keyedEntryFor_oldIndex_some {okm : List (Val × (VNode × Nat))}
    {c : VNode} {ni oi : Nat}
    (h : (keyedEntryFor okm c ni).oldIndex = some oi) :
    ∃ k e, keyOf c = some k ∧ alook okm k = some e ∧ e.2 = oi := by
  rcases hk : keyOf c with _ | k
  · rw [keyedEntryFor, hk] at h
    simp [ChildEntry.oldIndex] at h
  · rcases hl : alook okm k with _ | e
    · rw [keyedEntryFor, hk] at h
      simp only [hl] at h
      simp [ChildEntry.oldIndex] at h
    · rw [keyedEntryFor_hit _ _ _ _ _ hk hl] at h
      simp [ChildEntry.oldIndex] at h
      exact ⟨k, e, rfl, hl, h⟩

theorem getElem?_lt_length {α : Type} {l : List α} {j : Nat} {a : α}
    (h : l[j]? = some a) : j < l.length := by
  by_contra hle
  rw [List.getElem?_eq_none (Nat.le_of_not_lt hle)] at h
  exact Option.noConfusion h

/-- C2: with every new child keyed, `diffChildren` runs the keyed
reconciler: entry `j` of the patch list is the record the spec
describes for new child `j` — `{oldIndex, newIndex: j, key, patch:
diff(oldChild, newChild)}` on a key-map hit, else
`{oldIndex: absent, newIndex: j, key, patch: CREATE(newChild)}`
(`keyedEntryFor` is exactly that case split); a removal record
`{oldIndex: i, newIndex: absent, key, patch: REMOVE}` appears exactly
for the old indices no new child consumed; with duplicate-free new
keys an old index is consumed by at most one new child; and on old
`[a,b,c]` against new `[z,a,b,c]` the result is exactly one CREATE
(for `z`), three untouched matches and no removals. -/
theorem claim_C2_keyed_reconciler :
    (∀ (oldChildren newChildren : List VNode),
      (newChildren.filter (fun c => (keyOf c).isSome)).length =
          newChildren.length →
      (diffChildren oldChildren newChildren).keyed = true ∧
      ∀ j c, newChildren[j]? = some c →
        ((diffChildren oldChildren newChildren).patches)[j]? =
          some (keyedEntryFor (buildKeyMap oldChildren) c j)) ∧
    (∀ (oldChildren newChildren : List VNode),
      (newChildren.filter (fun c => (keyOf c).isSome)).length =
          newChildren.length →
      ∀ i c, oldChildren[i]? = some c →
        (ChildEntry.keyedE (some i) none (keyOf c) (some Patch.remove) ∈
            (diffChildren oldChildren newChildren).patches ↔
          i ∉ usedIndicesOf (buildKeyMap oldChildren) newChildren)) ∧
    (∀ (oldChildren newChildren : List VNode),
      (newChildren.filterMap keyOf).Nodup →
      ∀ j1 j2 c1 c2 oi, newChildren[j1]? = some c1 →
        newChildren[j2]? = some c2 →
        (keyedEntryFor (buildKeyMap oldChildren) c1 j1).oldIndex = some oi →
        (keyedEntryFor (buildKeyMap oldChildren) c2 j2).oldIndex = some oi →
        j1 = j2) ∧
    diffChildren [kNode "a", kNode "b", kNode "c"]
        [kNode "z", kNode "a", kNode "b", kNode "c"] =
      ChildPatches.mk true
        [ChildEntry.keyedE none (some 0) (some (Val.str "z"))
           (some (Patch.create (some (kNode "z")))),
         ChildEntry.keyedE (some 0) (some 1) (some (Val.str "a")) none,
         ChildEntry.keyedE (some 1) (some 2) (some (Val.str "b")) none,
         ChildEntry.keyedE (some 2) (some 3) (some (Val.str "c")) none] := by
  refine ⟨?_, ?_, ?_, ?_⟩
  · intro oldChildren newChildren hall
    rw [diffChildren_allKeyed _ _ hall]
    refine ⟨rfl, ?_⟩
    intro j c hj
    have hjlen : j < newChildren.length := getElem?_lt_length hj
    rw [ChildPatches.patches_mk,
      List.getElem?_append_left (by rw [diffKeyedFrom_length]; exact hjlen),
      diffKeyedFrom_getElem _ _ 0 j c hj, Nat.zero_add]
  · intro oldChildren newChildren hall i c hi
    rw [diffChildren_allKeyed _ _ hall, ChildPatches.patches_mk,
      List.mem_append]
    constructor
    · rintro (hm | hm)
      · obtain ⟨j, c', _, he⟩ := mem_diffKeyedFrom hm
        have := keyedEntryFor_newIndex (buildKeyMap oldChildren) c' (0 + j)
        rw [← he] at this
        simp [ChildEntry.newIndex] at this
      · unfold removalsOf at hm
        rw [List.mem_filterMap] at hm
        obtain ⟨⟨i', c'⟩, hmem, hent⟩ := hm
        by_cases hu : i' ∈ usedIndicesOf (buildKeyMap oldChildren) newChildren
        · simp [hu] at hent
        · simp only [hu, if_neg, if_false] at hent
          have h1 : i' = i := by
            have := congrArg ChildEntry.oldIndex (Option.some.injEq .. ▸ hent)
            simpa [ChildEntry.oldIndex] using this
          subst h1
          exact hu
    · intro hu
      right
      unfold removalsOf
      rw [List.mem_filterMap]
      refine ⟨(i, c), List.mk_mem_enum_iff_getElem?.mpr hi, ?_⟩
      simp [hu]
  · intro oldChildren newChildren hnd j1 j2 c1 c2 oi h1 h2 ho1 ho2
    obtain ⟨k1, e1, hk1, hl1, he1⟩ := keyedEntryFor_oldIndex_some ho1
    obtain ⟨k2, e2, hk2, hl2, he2⟩ := keyedEntryFor_oldIndex_some ho2
    rcases buildKeyMapFrom_lookup_sound oldChildren 0 [] k1 e1 hl1 with
      ⟨i1, hi1, hoi1, hke1⟩ | habs
    swap
    · simp at habs
    rcases buildKeyMapFrom_lookup_sound oldChildren 0 [] k2 e2 hl2 with
      ⟨i2, hi2, hoi2, hke2⟩ | habs
    swap
    · simp at habs
    have hi12 : i1 = i2 := by omega
    subst hi12
    have he12 : e1.1 = e2.1 := by
      rw [hi1] at hi2
      exact Option.some_inj.mp hi2
    have hk12 : k1 = k2 := by
      rw [he12] at hke1
      rw [hke1] at hke2
      exact Option.some_inj.mp hke2
    subst hk12
    have ha : alook (buildKeyMap newChildren) k1 = some (c1, 0 + j1) :=
      buildKeyMapFrom_lookup_nodup newChildren 0 [] j1 c1 k1 hnd h1 hk1
    have hb : alook (buildKeyMap newChildren) k1 = some (c2, 0 + j2) :=
      buildKeyMapFrom_lookup_nodup newChildren 0 [] j2 c2 k1 hnd h2 hk2
    rw [ha] at hb
    have hb2 := congrArg Prod.snd (Option.some_inj.mp hb)
    simp at hb2
    omega
  · simp +decide [diff, diffChildren, diffPosFrom, diffKeyedFrom, diffProps,
      buildKeyMap, buildKeyMapFrom, usedIndicesOf, removalsOf, keyOf, kNode,
      alook, aset, List.enum, List.enumFrom]

/-- C2 witness: the per-index clause applied at the concrete keyed
lists of the claim, its hypothesis discharged there. -/
theorem claim_C2_witness :
    (([kNode "z", kNode "a"].filter (fun c => (keyOf c).isSome)).length =
        [kNode "z", kNode "a"].length) ∧
    ((diffChildren [kNode "a"] [kNode "z", kNode "a"]).patches)[0]? =
      some (keyedEntryFor (buildKeyMap [kNode "a"]) (kNode "z") 0) :=
  ⟨by simp +decide [keyOf, kNode],
   (claim_C2_keyed_reconciler.1 [kNode "a"] [kNode "z", kNode "a"]
      (by simp +decide [keyOf, kNode])).2 0 (kNode "z") rfl⟩

/-!
The reactive module. One store (`createReactive`) with its `deps` map,
the process-wide `currentEffect` slot, and the effects registered
against it are gathered into one explicit state record `RState`.
Effects are identified by numeric ids; `effect.deps` (the array of dep
sets an effect joined) is kept per effect id, a dep set being named by
its property key. Effect bodies are deep-embedded as `Prog` so that a
run is executable; the `log` field is pure instrumentation recording
each effect invocation (it never influences control flow). Because a
write can re-run effects whose bodies write again, the interpreter
takes fuel, consumed only when an effect body starts running.
-/

/-- The body of an effect: a straight-line JS function reading and
writing reactive properties, with one conditional form
(`if (state.k) { ... } else { ... }`) whose test reads `k`. -/
inductive Prog : Type where
  | skip
  | read (k : String)
  | write (k : String) (v : Val)
  | ifRead (k : String) (thenB elseB : Prog)
  | seq (p q : Prog)
deriving DecidableEq, Repr

/-- The whole reactive state: the proxied `target` object, the store's
`deps` map (`key -> Set of effects`, sets as insertion-ordered
duplicate-free lists of effect ids), each effect's `deps` array
(`effDeps`, the keys of the dep sets it was pushed into, duplicates
possible exactly as in the source), the global `currentEffect`, the
registered bodies, and the invocation log. -/
structure RState : Type where
  target : List (String × Val)
  deps : List (String × List Nat)
  effDeps : List (Nat × List String)
  current : Option Nat
  bodies : List (Nat × Prog)
  log : List Nat
deriving DecidableEq, Repr

/-- JS `Set.prototype.add`: appends only if absent, keeping insertion
order. -/
def setAdd (l : List Nat) (e : Nat) : List Nat :=
  if e ∈ l then l else l ++ [e]

/-- JS `Set.prototype.delete`: removes the element, order of the rest
preserved. -/
def setDel (l : List Nat) (e : Nat) : List Nat :=
  l.filter (fun x => x ≠ e)

/-- `track(key)` of `createReactive`: with an active computation,
ensure `deps` has a set for `key`, add the computation to it, and push
the dep set (its key) onto the computation's `deps` array —
unconditionally, as in the source. Without an active computation, do
nothing. -/
def track (s : RState) (k : String) : RState :=
  match s.current with
  | none => s
  | some e =>
      { s with
        deps := aset s.deps k (setAdd ((alook s.deps k).getD []) e),
        effDeps := aset s.effDeps e (((alook s.effDeps e).getD []) ++ [k]) }

/-- `cleanup(effect)`: remove the effect from every dep set recorded in
its `deps` array, then empty that array. -/
def cleanup (s : RState) (e : Nat) : RState :=
  let keys := (alook s.effDeps e).getD []
  { s with
    deps := keys.foldl
      (fun d k => aset d k (setDel ((alook d k).getD []) e)) s.deps,
    effDeps := aset s.effDeps e [] }

/-- One iteration group of `trigger`: run every effect of the snapshot
`Array.from(effects)` in order, skipping an effect that is the
currently active one at its turn; `runEff` is the re-run entry point
(`runEffect fuel` below). -/
def runSnapshotWith (runEff : RState → Nat → RState) :
    RState → List Nat → RState
  | s, [] => s
  | s, e :: rest =>
      runSnapshotWith runEff
        (if s.current = some e then s else runEff s e) rest

/-- `trigger(key)`: if `deps` holds a set for `key`, snapshot it and
run its members. -/
def triggerWith (runEff : RState → Nat → RState) (s : RState) (k : String) :
    RState :=
  match alook s.deps k with
  | none => s
  | some es => runSnapshotWith runEff s es

/-- The `set` trap of the proxy: read the old value, store the new one,
then — only if the two differ by strict equality — trigger the key's
subscribers. -/
def writeKeyWith (runEff : RState → Nat → RState) (s : RState) (k : String)
    (v : Val) : RState :=
  let oldValue := (alook s.target k).getD Val.undef
  let s1 := { s with target := aset s.target k v }
  if oldValue ≠ v then triggerWith runEff s1 k else s1

/-- Run an effect body. Reads go through the proxy `get` trap
(`track` then the raw property read); writes through the `set` trap. -/
def runProgWith (runEff : RState → Nat → RState) : RState → Prog → RState
  | s, .skip => s
  | s, .read k => track s k
  | s, .write k v => writeKeyWith runEff s k v
  | s, .ifRead k p q =>
      let s' := track s k
      if ((alook s.target k).getD Val.undef).truthy then runProgWith runEff s' p
      else runProgWith runEff s' q
  | s, .seq p q => runProgWith runEff (runProgWith runEff s p) q

/-- `wrappedEffect`: log the invocation (instrumentation), `cleanup`,
save the previous `currentEffect`, mark this effect active, run the
body, restore the previous active effect. Out of fuel, the run is
abandoned with the state unchanged. -/
def runEffect : Nat → RState → Nat → RState
  | 0, s, _ => s
  | fuel + 1, s, e =>
      let prev := s.current
      let s1 := cleanup { s with log := s.log ++ [e] } e
      let s2 := { s1 with current := some e }
      let s3 := runProgWith (runEffect fuel) s2
        ((alook s.bodies e).getD Prog.skip)
      { s3 with current := prev }

/-- A write arriving from outside any effect (`state.count = 1` in
application code). -/
def writeKey (fuel : Nat) (s : RState) (k : String) (v : Val) : RState :=
  writeKeyWith (runEffect fuel) s k v

/-- `effect(fn)`: record the body, give the effect an empty `deps`
array, and run it once immediately. -/
def registerEffect (fuel : Nat) (s : RState) (e : Nat) (body : Prog) : RState :=
  let s1 := { s with
    bodies := aset s.bodies e body,
    effDeps := aset s.effDeps e [] }
  runEffect fuel s1 e

/-- `createReactive(target)`: fresh store state around a target object. -/
def mkState (target : List (String × Val)) : RState :=
  { target := target, deps := [], effDeps := [], current := none,
    bodies := [], log := [] }

@[simp] theorem track_log (s : RState) (k : String) : (track s k).log = s.log := by
  unfold track
  cases hc : s.current <;> simp [hc]

@[simp] theorem track_current (s : RState) (k : String) :
    (track s k).current = s.current := by
  unfold track
  cases hc : s.current <;> simp [hc]

@[simp] theorem track_bodies (s : RState) (k : String) :
    (track s k).bodies = s.bodies := by
  unfold track
  cases hc : s.current <;> simp [hc]

@[simp] theorem cleanup_log (s : RState) (e : Nat) : (cleanup s e).log = s.log := rfl

@[simp] theorem cleanup_current (s : RState) (e : Nat) :
    (cleanup s e).current = s.current := rfl

@[simp] theorem cleanup_bodies (s : RState) (e : Nat) :
    (cleanup s e).bodies = s.bodies := rfl

theorem runEffect_current (fuel : Nat) (s : RState) (e : Nat) :
    (runEffect fuel s e).current = s.current := by
  cases fuel <;> rfl

/-- Everything the interpreter does only ever appends to the log. -/
theorem runSnapshotWith_logExt (runEff : RState → Nat → RState)
    (h : ∀ t a, ∃ u, (runEff t a).log = t.log ++ u) :
    ∀ (es : List Nat) (s : RState),
      ∃ u, (runSnapshotWith runEff s es).log = s.log ++ u := by
  intro es
  induction es with
  | nil => exact fun s => ⟨[], by simp [runSnapshotWith]⟩
  | cons e0 rest ih =>
      intro s
      rw [runSnapshotWith]
      by_cases hc : s.current = some e0
      · rw [if_pos hc]
        exact ih s
      · rw [if_neg hc]
        obtain ⟨u, hu⟩ := h s e0
        obtain ⟨w, hw⟩ := ih (runEff s e0)
        exact ⟨u ++ w, by rw [hw, hu, List.append_assoc]⟩

theorem runProgWith_logExt (runEff : RState → Nat → RState)
    (h : ∀ t a, ∃ u, (runEff t a).log = t.log ++ u) :
    ∀ (p : Prog) (s : RState),
      ∃ u, (runProgWith runEff s p).log = s.log ++ u := by
  intro p
  induction p with
  | skip => exact fun s => ⟨[], by simp [runProgWith]⟩
  | read k => exact fun s => ⟨[], by simp [runProgWith]⟩
  | write k v =>
      intro s
      rw [runProgWith, writeKeyWith]
      by_cases hv : (alook s.target k).getD Val.undef ≠ v
      · rw [if_pos hv, triggerWith]
        rcases hd : alook ({ s with target := aset s.target k v } : RState).deps k
          with _ | es
        · exact ⟨[], by simp⟩
        · obtain ⟨u, hu⟩ := runSnapshotWith_logExt runEff h es
            { s with target := aset s.target k v }
          exact ⟨u, by simpa using hu⟩
      · rw [if_neg hv]
        exact ⟨[], by simp⟩
  | ifRead k p q ihp ihq =>
      intro s
      rw [runProgWith]
      by_cases ht : ((alook s.target k).getD Val.undef).truthy
      · rw [if_pos ht]
        obtain ⟨u, hu⟩ := ihp (track s k)
        exact ⟨u, by rw [hu, track_log]⟩
      · rw [if_neg ht]
        obtain ⟨u, hu⟩ := ihq (track s k)
        exact ⟨u, by rw [hu, track_log]⟩
  | seq p q ihp ihq =>
      intro s
      rw [runProgWith]
      obtain ⟨u, hu⟩ := ihp s
      obtain ⟨w, hw⟩ := ihq (runProgWith runEff s p)
      exact ⟨u ++ w, by rw [hw, hu, List.append_assoc]⟩

/-- Zeta-free unfolding of a fueled effect run. -/
theorem runEffect_succ (fuel : Nat) (s : RState) (e : Nat) :
    runEffect (fuel + 1) s e =
      { runProgWith (runEffect fuel)
          { cleanup { s with log := s.log ++ [e] } e with current := some e }
          ((alook s.bodies e).getD Prog.skip)
        with current := s.current } := by
  rw [runEffect]

theorem runEffect_logExt : ∀ (fuel : Nat) (s : RState) (e : Nat),
    ∃ u, (runEffect fuel s e).log = s.log ++ u := by
  intro fuel
  induction fuel with
  | zero => exact fun s e => ⟨[], by simp [runEffect]⟩
  | succ fuel ih =>
      intro s e
      rw [runEffect_succ]
      obtain ⟨u, hu⟩ := runProgWith_logExt (runEffect fuel) ih
        ((alook s.bodies e).getD Prog.skip)
        { cleanup { s with log := s.log ++ [e] } e with current := some e }
      refine ⟨[e] ++ u, ?_⟩
      show (runProgWith (runEffect fuel)
          { cleanup { s with log := s.log ++ [e] } e with current := some e }
          ((alook s.bodies e).getD Prog.skip)).log = s.log ++ ([e] ++ u)
      rw [hu]
      show (s.log ++ [e]) ++ u = s.log ++ ([e] ++ u)
      rw [List.append_assoc]

/-- With fuel, a run of an effect records the effect in the log right
away. -/
theorem runEffect_logStart (fuel : Nat) (hf : 0 < fuel) (s : RState) (e : Nat) :
    ∃ u, (runEffect fuel s e).log = s.log ++ [e] ++ u := by
  cases fuel with
  | zero => exact absurd hf (by simp)
  | succ fuel =>
      rw [runEffect_succ]
      obtain ⟨u, hu⟩ := runProgWith_logExt (runEffect fuel)
        (fun t a => runEffect_logExt fuel t a)
        ((alook s.bodies e).getD Prog.skip)
        { cleanup { s with log := s.log ++ [e] } e with current := some e }
      refine ⟨u, ?_⟩
      show (runProgWith (runEffect fuel)
          { cleanup { s with log := s.log ++ [e] } e with current := some e }
          ((alook s.bodies e).getD Prog.skip)).log = s.log ++ [e] ++ u
      rw [hu]
      rfl

theorem mem_drop_of_mem_drop_ge {α : Type} {l : List α} {x : α} {n m : Nat}
    (hnm : n ≤ m) (h : x ∈ l.drop m) : x ∈ l.drop n := by
  have heq : l.drop m = (l.drop n).drop (m - n) := by
    rw [List.drop_drop]
    congr 1
    omega
  rw [heq] at h
  exact List.mem_of_mem_drop h

theorem mem_log_runSnapshot (fuel : Nat) (hf : 0 < fuel) :
    ∀ (es : List Nat) (s : RState) (e : Nat), e ∈ es → s.current ≠ some e →
      e ∈ ((runSnapshotWith (runEffect fuel) s es).log).drop s.log.length := by
  intro es
  induction es with
  | nil => simp
  | cons e0 rest ih =>
      intro s e he hcur
      rw [runSnapshotWith]
      rcases List.mem_cons.mp he with rfl | he'
      · rw [if_neg hcur]
        obtain ⟨u, hu⟩ := runEffect_logStart fuel hf s e
        obtain ⟨w, hw⟩ := runSnapshotWith_logExt (runEffect fuel)
          (fun t a => runEffect_logExt fuel t a) rest (runEffect fuel s e)
        rw [hw, hu]
        rw [List.append_assoc, List.append_assoc, List.drop_left]
        simp
      · by_cases hc0 : s.current = some e0
        · rw [if_pos hc0]
          exact ih s e he' hcur
        · rw [if_neg hc0]
          have hcur' : (runEffect fuel s e0).current ≠ some e := by
            rw [runEffect_current]
            exact hcur
          have hmem := ih (runEffect fuel s e0) e he' hcur'
          obtain ⟨u, hu⟩ := runEffect_logExt fuel s e0
          refine mem_drop_of_mem_drop_ge ?_ hmem
          rw [hu]
          simp

/-- The spec scenario: a store `{count: 0}` with one registered effect
that reads `count`. -/
def counterState : RState :=
  registerEffect 10 (mkState [("count", Val.num 0)]) 0 (Prog.read "count")

/-- C3: a write of an unchanged value (strict equality against the
prior stored value) stores the value and notifies nobody; a write of a
changed value synchronously invokes every computation subscribed to
the key at write time other than the currently active one; on the
concrete `{count: 0}` store with one `count`-reading effect, writing
`count = 1` re-runs that effect exactly once, and writing `count = 1`
again re-runs nothing. -/
theorem claim_C3_write_notification :
    (∀ (runEff : RState → Nat → RState) (s : RState) (k : String) (v : Val),
      (alook s.target k).getD Val.undef = v →
      writeKeyWith runEff s k v = { s with target := aset s.target k v } ∧
      (writeKeyWith runEff s k v).log = s.log) ∧
    (∀ (fuel : Nat) (s : RState) (k : String) (v : Val) (es : List Nat) (e : Nat),
      0 < fuel →
      (alook s.target k).getD Val.undef ≠ v →
      alook s.deps k = some es →
      e ∈ es →
      s.current ≠ some e →
      e ∈ ((writeKey fuel s k v).log).drop s.log.length) ∧
    ((writeKey 10 counterState "count" (Val.num 1)).log =
        counterState.log ++ [0] ∧
     (writeKey 10 (writeKey 10 counterState "count" (Val.num 1)) "count"
          (Val.num 1)).log =
        (writeKey 10 counterState "count" (Val.num 1)).log) := by
  refine ⟨?_, ?_, by decide, by decide⟩
  · intro runEff s k v hv
    rw [writeKeyWith]
    rw [if_neg (by simpa using hv)]
    exact ⟨rfl, rfl⟩
  · intro fuel s k v es e hf hv hdeps he hcur
    rw [writeKey, writeKeyWith, if_pos hv, triggerWith]
    have hdeps1 : alook ({ s with target := aset s.target k v } : RState).deps k =
        some es := hdeps
    rw [hdeps1]
    show e ∈ ((runSnapshotWith (runEffect fuel)
      { s with target := aset s.target k v } es).log).drop s.log.length
    exact mem_log_runSnapshot fuel hf es
      { s with target := aset s.target k v } e he hcur

/-- C3 witness: the changed-value clause applied to the concrete
counter store, all hypotheses discharged there. -/
theorem claim_C3_witness :
    ((alook counterState.target "count").getD Val.undef ≠ Val.num 1 ∧
     alook counterState.deps "count" = some [0] ∧
     counterState.current ≠ some 0) ∧
    0 ∈ ((writeKey 10 counterState "count" (Val.num 1)).log).drop
      counterState.log.length :=
  ⟨⟨by decide, by decide, by decide⟩,
   claim_C3_write_notification.2.1 10 counterState "count" (Val.num 1) [0] 0
     (by decide) (by decide) (by decide) (by decide) (by decide)⟩

/-- A run of an effect whose body is a bare read of `k` logs exactly
that one invocation and preserves the active slot and the registry. -/
theorem runEffect_read_body (fuel : Nat) (t : RState) (e : Nat) (k : String)
    (hb : alook t.bodies e = some (Prog.read k)) :
    (runEffect (fuel + 1) t e).log = t.log ++ [e] ∧
    (runEffect (fuel + 1) t e).current = t.current ∧
    (runEffect (fuel + 1) t e).bodies = t.bodies := by
  rw [runEffect_succ, hb]
  refine ⟨?_, ?_, ?_⟩
  · show (runProgWith (runEffect fuel)
        { cleanup { t with log := t.log ++ [e] } e with current := some e }
        (Prog.read k)).log = t.log ++ [e]
    rw [runProgWith, track_log]
    rfl
  · rfl
  · show (runProgWith (runEffect fuel)
        { cleanup { t with log := t.log ++ [e] } e with current := some e }
        (Prog.read k)).bodies = t.bodies
    rw [runProgWith, track_bodies]
    rfl

theorem runSnapshot_read_bodies (fuel : Nat) (k : String) :
    ∀ (es : List Nat) (t : RState),
      t.current = none →
      (∀ e ∈ es, alook t.bodies e = some (Prog.read k)) →
      (runSnapshotWith (runEffect (fuel + 1)) t es).log = t.log ++ es := by
  intro es
  induction es with
  | nil => intro t _ _; simp [runSnapshotWith]
  | cons e0 rest ih =>
      intro t hcur hb
      rw [runSnapshotWith, if_neg (by rw [hcur]; simp)]
      obtain ⟨hlog, hcur', hbod⟩ :=
        runEffect_read_body fuel t e0 k (hb e0 (List.mem_cons_self _ _))
      rw [ih (runEffect (fuel + 1) t e0)
        (by rw [hcur', hcur])
        (by intro e he; rw [hbod]; exact hb e (List.mem_cons_of_mem _ he))]
      rw [hlog, List.append_assoc]
      rfl

/-- C10: a write notification iterates over the snapshot of the
subscriber set taken when `trigger` starts: when every subscriber's
body re-reads the written key — so every invocation first removes
itself from the dependency set and then re-adds itself, mutating the
set mid-pass — each subscriber is still invoked exactly once, in
snapshot order, nothing more and nothing less. -/
theorem claim_C10_snapshot_notification (fuel : Nat) (s : RState) (k : String)
    (v : Val) (es : List Nat)
    (hdeps : alook s.deps k = some es)
    (hbodies : ∀ e ∈ es, alook s.bodies e = some (Prog.read k))
    (hcur : s.current = none)
    (hchanged : (alook s.target k).getD Val.undef ≠ v) :
    (writeKey (fuel + 1) s k v).log = s.log ++ es := by
  rw [writeKey, writeKeyWith, if_pos hchanged, triggerWith]
  have hdeps1 : alook ({ s with target := aset s.target k v } : RState).deps k =
      some es := hdeps
  rw [hdeps1]
  show (runSnapshotWith (runEffect (fuel + 1))
      { s with target := aset s.target k v } es).log = s.log ++ es
  exact runSnapshot_read_bodies fuel k es
    { s with target := aset s.target k v } hcur hbodies

/-- The two-subscriber store for the C10 witness: effects 0 and 1 both
read `k`. -/
def twoSubscriberState : RState :=
  registerEffect 10
    (registerEffect 10 (mkState [("k", Val.num 0)]) 0 (Prog.read "k"))
    1 (Prog.read "k")

/-- C10 witness: both subscribers re-run exactly once, in snapshot
order, even though each run rewrites the dependency set. -/
theorem claim_C10_witness :
    (alook twoSubscriberState.deps "k" = some [0, 1] ∧
     twoSubscriberState.current = none ∧
     (alook twoSubscriberState.target "k").getD Val.undef ≠ Val.num 7) ∧
    (writeKey 10 twoSubscriberState "k" (Val.num 7)).log =
      twoSubscriberState.log ++ [0, 1] :=
  ⟨⟨by decide, by decide, by decide⟩,
   claim_C10_snapshot_notification 9 twoSubscriberState "k" (Val.num 7) [0, 1]
     (by decide) (by decide) (by decide) (by decide)⟩

theorem foldDel_not_mem (e : Nat) (ks : List String)
    (d : List (String × List Nat)) (k : String) (hk : k ∉ ks) :
    alook (ks.foldl (fun d k => aset d k (setDel ((alook d k).getD []) e)) d) k =
      alook d k := by
  induction ks generalizing d with
  | nil => rfl
  | cons k0 rest ih =>
      rw [List.foldl_cons]
      rw [ih _ (fun h => hk (List.mem_cons_of_mem _ h))]
      exact alook_aset_ne _ _ _ _ (fun h => hk (h ▸ List.mem_cons_self _ _))

theorem foldDel_mem (e : Nat) (ks : List String)
    (d : List (String × List Nat)) (k : String) (hk : k ∈ ks) :
    e ∉ (alook (ks.foldl
      (fun d k => aset d k (setDel ((alook d k).getD []) e)) d) k).getD [] := by
  induction ks generalizing d with
  | nil => simp at hk
  | cons k0 rest ih =>
      rw [List.foldl_cons]
      by_cases hr : k ∈ rest
      · exact ih _ hr
      · have hkk0 : k = k0 := by
          rcases List.mem_cons.mp hk with h | h
          · exact h
          · exact absurd h hr
        subst hkk0
        rw [foldDel_not_mem e rest _ k hr, alook_aset_self]
        intro hmem
        simp only [Option.getD_some] at hmem
        rw [setDel, List.mem_filter] at hmem
        simp at hmem

/-- The conditional-dependency scenario: a store
`{flag: true, x: 0}` with one registered effect running
`if (state.flag) state.x`. -/
def flagState : RState :=
  registerEffect 10 (mkState [("flag", Val.boolean true), ("x", Val.num 0)]) 0
    (Prog.ifRead "flag" (Prog.read "x") Prog.skip)

def flagState1 : RState := writeKey 10 flagState "x" (Val.num 1)

def flagState2 : RState := writeKey 10 flagState1 "flag" (Val.boolean false)

/-- C4: `cleanup` at the start of every run removes the computation
from every dependency set it is a member of (the effect's `deps` array
names every set that holds it), so subscriptions of a run are exactly
the reads of that run; consequently the conditional effect
`if (state.flag) state.x` re-runs on an `x` write while `flag` is
true, re-runs once when `flag` turns false, and after that a write to
`x` finds an empty `x` subscriber set and re-runs nothing. -/
theorem claim_C4_dynamic_dependencies :
    (∀ (s : RState) (e : Nat) (k : String),
      (∀ kl ∈ s.deps, e ∈ kl.2 → kl.1 ∈ (alook s.effDeps e).getD []) →
      e ∉ (alook (cleanup s e).deps k).getD []) ∧
    (flagState1.log = flagState.log ++ [0] ∧
     flagState2.log = flagState1.log ++ [0] ∧
     (alook flagState2.deps "x").getD [] = [] ∧
     (writeKey 10 flagState2 "x" (Val.num 5)).log = flagState2.log) := by
  refine ⟨?_, by decide, by decide, by decide, by decide⟩
  intro s e k hcons
  rw [cleanup]
  by_cases hk : k ∈ (alook s.effDeps e).getD []
  · exact foldDel_mem e _ s.deps k hk
  · rw [foldDel_not_mem e _ s.deps k hk]
    intro hmem
    rcases hl : alook s.deps k with _ | l
    · rw [hl] at hmem
      simp at hmem
    · rw [hl] at hmem
      simp only [Option.getD_some] at hmem
      exact hk (hcons (k, l) (mem_of_alook hl) hmem)

/-- C4 witness: the cleanup clause applied to the counter store, whose
one dependency set holds effect 0, and the consistency hypothesis and
result evaluated there. -/
theorem claim_C4_witness :
    (∀ kl ∈ counterState.deps, 0 ∈ kl.2 →
      kl.1 ∈ (alook counterState.effDeps 0).getD []) ∧
    0 ∉ (alook (cleanup counterState 0).deps "count").getD [] :=
  ⟨by decide,
   claim_C4_dynamic_dependencies.1 counterState 0 "count" (by decide)⟩

/-!
The prop-application surface of `src/src/render.js`. A live element's
settable surface is modelled as the trace of mutations a call performs
on it (listener registrations, `className` and `value` assignments,
`Object.assign` on `style`, `setAttribute` and `removeAttribute`),
plus the per-element `eventHandlers` registry the module keeps in its
`WeakMap`. -/
inductive DomOp : Type where
  | removeListener (event : String) (handler : Val)
  | addListener (event : String) (handler : Val)
  | setClassName (value : Val)
  | assignStyle (value : Val)
  | setValue (value : Val)
  | setAttr (key : String) (value : Val)
  | removeAttr (key : String)
deriving DecidableEq, Repr

/-- `typeof value === 'object'` for our value model. -/
def isObjectVal : Val → Bool
  | .obj _ => true
  | _ => false

/-- `setProp(el, key, value)` from `src/src/render.js`: the reserved
`key` prop returns immediately, `on*` props re-register a listener,
`className`, object-valued `style` and `value` hit dedicated element
properties, anything else goes through `setAttribute`. Returns the
mutations performed and the updated handler registry of the element. -/
def setProp (handlers : List (String × Val)) (key : String) (value : Val) :
    List DomOp × List (String × Val) :=
  if key = "key" then ([], handlers)
  else if key.startsWith "on" then
    let eventName := (key.drop 2).toLower
    let removeOps :=
      match alook handlers key with
      | some old => [DomOp.removeListener eventName old]
      | none => []
    (removeOps ++ [DomOp.addListener eventName value], aset handlers key value)
  else if key = "className" then ([DomOp.setClassName value], handlers)
  else if key = "style" ∧ isObjectVal value then
    ([DomOp.assignStyle value], handlers)
  else if key = "value" then ([DomOp.setValue value], handlers)
  else ([DomOp.setAttr key value], handlers)

/-- `setProps(el, props)`: `setProp` over every prop of a vnode, in
order — the node-creation path of `createElement`. -/
def setProps (handlers : List (String × Val)) (props : List (String × Val)) :
    List DomOp × List (String × Val) :=
  props.foldl
    (fun acc kv =>
      let r := setProp acc.2 kv.1 kv.2
      (acc.1 ++ r.1, r.2))
    ([], handlers)

/-- `removeProp(el, key)` from `src/src/render.js` (the UNSET path):
`on*` keys drop the registered listener, `className` is reset to the
empty string, anything else goes through `removeAttribute`. -/
def removeProp (handlers : List (String × Val)) (key : String) :
    List DomOp × List (String × Val) :=
  if key.startsWith "on" then
    let eventName := (key.drop 2).toLower
    match alook handlers key with
    | some old => ([DomOp.removeListener eventName old], adel handlers key)
    | none => ([], handlers)
  else if key = "className" then ([DomOp.setClassName (Val.str "")], handlers)
  else ([DomOp.removeAttr key], handlers)

/-- The `UPDATE` branch of `patch`: apply one prop patch —
`SET_PROP` through `setProp`, `REMOVE_PROP` through `removeProp`. -/
def applyPropPatch (handlers : List (String × Val)) : PropPatch →
    List DomOp × List (String × Val)
  | .setProp key value => setProp handlers key value
  | .removeProp key => removeProp handlers key

/-- C8: the reserved prop name `key` never reaches the element's
settable surface: `setProp` returns at once with no mutation and an
unchanged handler registry; node creation (`setProps`) behaves as if
every `key` prop had been filtered out; and an applied `SET_PROP` of
`key` during `UPDATE` performs no mutation either. -/
theorem claim_C8_reserved_key_never_written :
    (∀ (handlers : List (String × Val)) (v : Val),
      setProp handlers "key" v = ([], handlers)) ∧
    (∀ (handlers : List (String × Val)) (props : List (String × Val)),
      setProps handlers props =
        setProps handlers (props.filter (fun kv => kv.1 ≠ "key"))) ∧
    (∀ (handlers : List (String × Val)) (v : Val),
      applyPropPatch handlers (PropPatch.setProp "key" v) = ([], handlers)) := by
  have hkey : ∀ (handlers : List (String × Val)) (v : Val),
      setProp handlers "key" v = ([], handlers) := by
    intro handlers v
    rw [setProp, if_pos rfl]
  refine ⟨hkey, ?_, fun handlers v => hkey handlers v⟩
  intro handlers props
  rw [setProps, setProps]
  suffices h : ∀ (ps : List (String × Val)) (acc : List DomOp × List (String × Val)),
      ps.foldl (fun acc kv =>
          let r := setProp acc.2 kv.1 kv.2
          (acc.1 ++ r.1, r.2)) acc =
        (ps.filter (fun kv => kv.1 ≠ "key")).foldl (fun acc kv =>
          let r := setProp acc.2 kv.1 kv.2
          (acc.1 ++ r.1, r.2)) acc by
    exact h props ([], handlers)
  intro ps
  induction ps with
  | nil => intro acc; rfl
  | cons kv rest ih =>
      rintro ⟨a1, a2⟩
      obtain ⟨k0, v0⟩ := kv
      by_cases hk : k0 = "key"
      · subst hk
        simp only [List.foldl_cons, List.filter_cons]
        rw [if_neg (by simp)]
        simp only [hkey, List.append_nil]
        exact ih (a1, a2)
      · rw [List.foldl_cons, List.filter_cons]
        rw [if_pos (by simp [hk])]
        rw [List.foldl_cons]
        exact ih _

end Murjs
